import Mathlib

/-!
Verification of the constrained parameterization solver in
`include/directional/parameterize.h` (libdirectional).

The C++ routine `directional::parameterize` assembles a per-face difference
operator `d0`, a diagonal edge-weight matrix `M1` and a target vector `gamma`,
forms the reduced energy `EtE = vt2cMatᵀ · d0ᵀ · M1 · d0 · vt2cMat`, embeds it
with the constraint matrix into an augmented saddle-point matrix `A` and a
right-hand side `b`, factorizes `A` with `Eigen::SparseLU`, solves `A·x = b`,
and writes `cornerUV = vt2cMat · x`.

This file embeds that routine shallowly: matrices are dimension-tagged entry
functions over `ℚ` (modelling `double` exactly on the rational inputs used
here), triplet-based assembly (`setFromTriplets`, which sums duplicate
entries) is modelled by summing every triplet contribution at an index, and
the external `SparseLU` factor/solve step is an oracle parameter `LUSolver`
(its numeric outcome is outside the embedded code).  Eigen's runtime
dimension assertions on the product/solve calls of the routine are modelled
as an `assertFail` outcome, and the two `if(solver.info()!=Success) return;`
early exits as `earlyReturn`.
-/

namespace Directional

/-- A matrix with explicit dimensions and an entry function; models
`Eigen::SparseMatrix<double>` / dense matrices in the routine. -/
structure SpMat where
  rows : ℕ
  cols : ℕ
  entry : ℕ → ℕ → ℚ

/-- A vector with explicit length and an entry function (`Eigen::VectorXd`). -/
structure Vec where
  len : ℕ
  entry : ℕ → ℚ

/-- Matrix transpose. -/
def SpMat.transpose (M : SpMat) : SpMat :=
  ⟨M.cols, M.rows, fun r c => M.entry c r⟩

/-- Matrix product; the sum ranges over the left factor's column count,
as Eigen's product does. -/
def SpMat.mul (M B : SpMat) : SpMat :=
  ⟨M.rows, B.cols, fun r c => ∑ m ∈ Finset.range M.cols, M.entry r m * B.entry m c⟩

/-- Matrix-vector product. -/
def SpMat.mulVec (M : SpMat) (v : Vec) : Vec :=
  ⟨M.rows, fun r => ∑ m ∈ Finset.range M.cols, M.entry r m * v.entry m⟩

/-- The leading `m` entries of a vector (`v.segment(0, m)`). -/
def Vec.take (v : Vec) (m : ℕ) : Vec :=
  ⟨m, fun r => if r < m then v.entry r else 0⟩

/-- The inputs of `directional::parameterize`:  vertex positions `wholeV`,
face vertex indices `wholeF` (`numF` faces), face-edge map `FE`, the raw
field (`rawCols` columns), per-edge weights, the corner-to-reduced map
`vt2cMat` and the constraint matrix `constraintMat`. -/
structure PInput where
  numF : ℕ
  wholeV : ℕ → ℕ → ℚ
  wholeF : ℕ → ℕ → ℕ
  FE : ℕ → ℕ → ℕ
  rawCols : ℕ
  rawField : ℕ → ℕ → ℚ
  edgeWeights : ℕ → ℚ
  vt2cMat : SpMat
  constraintMat : SpMat

/-- `int N = rawField.cols()/3;` — branch count by integer division. -/
def branchN (inp : PInput) : ℕ := inp.rawCols / 3

/-- `edgeVector = (wholeV.row(wholeF(i,(j+1)%3)) - wholeV.row(wholeF(i,j)))`,
component `t`. -/
def edgeVector (inp : PInput) (i j t : ℕ) : ℚ :=
  inp.wholeV (inp.wholeF i ((j + 1) % 3)) t - inp.wholeV (inp.wholeF i j) t

/-- The difference operator `d0`, assembled from `d0Triplets` by
`setFromTriplets` (which sums coincident triplets).  Per face `i`, corner
`j`, branch `k` the code pushes `-1` at `(3*N*i+N*j+k, 3*N*i+N*j+k)` and
`+1` at `(3*N*i+N*j+k, 3*N*i+N*(j+1)%3+k)`; in C++ the latter column parses
as `3*N*i + ((N*(j+1)) % 3) + k`. -/
def d0 (inp : PInput) : SpMat :=
  let N := branchN inp
  ⟨3 * N * inp.numF, 3 * N * inp.numF, fun r c =>
    ∑ i ∈ Finset.range inp.numF, ∑ j ∈ Finset.range 3, ∑ k ∈ Finset.range N,
      ((if r = 3 * N * i + N * j + k ∧ c = 3 * N * i + N * j + k then (-1 : ℚ) else 0) +
       (if r = 3 * N * i + N * j + k ∧ c = 3 * N * i + (N * (j + 1)) % 3 + k then (1 : ℚ)
        else 0))⟩

/-- The diagonal weight matrix `M1`, assembled from `M1Triplets`:
value `edgeWeights(FE(i,j))` at the diagonal position `3*N*i+N*j+k`. -/
def M1 (inp : PInput) : SpMat :=
  let N := branchN inp
  ⟨3 * N * inp.numF, 3 * N * inp.numF, fun r c =>
    ∑ i ∈ Finset.range inp.numF, ∑ j ∈ Finset.range 3, ∑ k ∈ Finset.range N,
      (if r = 3 * N * i + N * j + k ∧ c = 3 * N * i + N * j + k then
        inp.edgeWeights (inp.FE i j) else 0)⟩

/-- The target vector: `gamma(3*N*i+N*j+k) = (rawField.block(i,3*k,1,3) *
edgeVector)(0,0)`.  Every index in range is written exactly once by the
loop, so the entry at an index is the sum of the contributions there. -/
def gamma (inp : PInput) : Vec :=
  let N := branchN inp
  ⟨3 * N * inp.numF, fun r =>
    ∑ i ∈ Finset.range inp.numF, ∑ j ∈ Finset.range 3, ∑ k ∈ Finset.range N,
      (if r = 3 * N * i + N * j + k then
        ∑ t ∈ Finset.range 3, inp.rawField i (3 * k + t) * edgeVector inp i j t
       else 0)⟩

/-- `EtE = vt2cMatTranspose * d0T * M1 * d0 * vt2cMat` (C++ products are
left-associated). -/
def EtE (inp : PInput) : SpMat :=
  ((((inp.vt2cMat.transpose).mul ((d0 inp).transpose)).mul (M1 inp)).mul (d0 inp)).mul
    inp.vt2cMat

/-- The augmented matrix `A`, of size `3*N*wholeF.rows()+constraintMat.rows()`
squared, assembled from `ATriplets`: every stored entry of `EtE` at its own
position, and every stored entry `constraintMat(p,q)` at
`(p + 3*N*numF, q)` and `(q, p + 3*N*numF)`. -/
def A (inp : PInput) : SpMat :=
  let N := branchN inp
  let n3 := 3 * N * inp.numF
  ⟨n3 + inp.constraintMat.rows, n3 + inp.constraintMat.rows, fun r c =>
    (if r < (EtE inp).rows ∧ c < (EtE inp).cols then (EtE inp).entry r c else 0) +
    ∑ p ∈ Finset.range inp.constraintMat.rows,
      ∑ q ∈ Finset.range inp.constraintMat.cols,
        ((if r = p + n3 ∧ c = q then inp.constraintMat.entry p q else 0) +
         (if r = q ∧ c = p + n3 then inp.constraintMat.entry p q else 0))⟩

/-- The right-hand side:
`b = VectorXd::Zero(vt2cMatTranspose.rows()+constraintMat.rows())` and then
`b.segment(0,vt2cMatTranspose.rows()) = vt2cMatTranspose*d0T*gamma`.
Note the code multiplies by `d0T` but not by `M1`. -/
def b (inp : PInput) : Vec :=
  ⟨inp.vt2cMat.cols + inp.constraintMat.rows, fun r =>
    if r < inp.vt2cMat.cols then
      (((inp.vt2cMat.transpose).mul ((d0 inp).transpose)).mulVec (gamma inp)).entry r
    else 0⟩

/-- Oracle for the external `Eigen::SparseLU` factor/solve: whether
`solver.compute(A)` reports `Success`, and the entries of `solver.solve(b)`
(`none` models `solver.info()!=Success` after the solve).  A returned
solution always has `A.cols` rows, which the embedding enforces below. -/
structure LUSolver where
  computeOk : SpMat → Bool
  solveEntries : SpMat → Vec → Option (ℕ → ℚ)

/-- Outcome of one call: an Eigen runtime dimension assertion (`assertFail`,
the process aborts), one of the two early `return`s on solver failure
(`earlyReturn`, the output argument is not written), or a computed
`cornerUV`. -/
inductive PResult where
  | assertFail : PResult
  | earlyReturn : PResult
  | ok : Vec → PResult

/-- The body of `directional::parameterize`.  The dimension checks model,
in source order, Eigen's runtime assertions on the products of line 78
(`vt2cMatTranspose*d0T` needs `vt2cMat.rows() == 3*N*numF`), on
`solver.solve(b)` (`b.rows() == A.rows()`), and on the final
`cornerUV = vt2cMat*x` (`vt2cMat.cols() == x.rows()`, where the solution
`x` of the square system has `A.rows()` rows). -/
def parameterize (solver : LUSolver) (inp : PInput) : PResult :=
  let N := branchN inp
  if inp.vt2cMat.rows = 3 * N * inp.numF then
    if solver.computeOk (A inp) then
      if (b inp).len = (A inp).rows then
        match solver.solveEntries (A inp) (b inp) with
        | none => .earlyReturn
        | some f =>
          if inp.vt2cMat.cols = (A inp).rows then
            .ok (inp.vt2cMat.mulVec ⟨(A inp).rows, f⟩)
          else .assertFail
      else .assertFail
    else .earlyReturn
  else .assertFail

/-- Whether a call produced a corner-UV output. -/
def isOk : PResult → Bool
  | .ok _ => true
  | _ => false

/-- The caller-visible content of the output argument `cornerUV` after the
call: the routine writes it only on the success path. -/
def parameterizeRun (solver : LUSolver) (inp : PInput) (cornerUV : Vec) : Vec :=
  match parameterize solver inp with
  | .ok uv => uv
  | _ => cornerUV

/-- Following the spec's words for claim C8, the difference operator with
the corner index wrapped before scaling by the branch stride: the `+1`
entry at column `3*N*i + N*((j+1) % 3) + k`. -/
def d0Spec (inp : PInput) : SpMat :=
  let N := branchN inp
  ⟨3 * N * inp.numF, 3 * N * inp.numF, fun r c =>
    ∑ i ∈ Finset.range inp.numF, ∑ j ∈ Finset.range 3, ∑ k ∈ Finset.range N,
      ((if r = 3 * N * i + N * j + k ∧ c = 3 * N * i + N * j + k then (-1 : ℚ) else 0) +
       (if r = 3 * N * i + N * j + k ∧ c = 3 * N * i + N * ((j + 1) % 3) + k then (1 : ℚ)
        else 0))⟩

/-- The dimension requirements the call places on its inputs, as modelled in
`parameterize`: the reduced-space products of line 78, the solve
`A·x = b`, and the final projection `vt2cMat * x`. -/
def dimOk (inp : PInput) : Prop :=
  inp.vt2cMat.rows = 3 * branchN inp * inp.numF ∧
  (b inp).len = (A inp).rows ∧
  inp.vt2cMat.cols = (A inp).rows

/- ### Concrete inputs used by the claims -/

/-- The spec's concrete scenario: one triangle with corners `(0,0,0)`,
`(1,0,0)`, `(0,1,0)`, `N = 1`, field `(1,0,0)`, unit edge weights, identity
corner-to-reduced map and one constraint row pinning unknown 0. -/
def triInput : PInput where
  numF := 1
  wholeV := fun v t => if v = 1 ∧ t = 0 then 1 else if v = 2 ∧ t = 1 then 1 else 0
  wholeF := fun _ j => j
  FE := fun _ j => j
  rawCols := 3
  rawField := fun _ c => if c = 0 then 1 else 0
  edgeWeights := fun _ => 1
  vt2cMat := ⟨3, 3, fun r c => if r = c then 1 else 0⟩
  constraintMat := ⟨1, 3, fun r c => if r = 0 ∧ c = 0 then 1 else 0⟩

/-- The triangle scenario without constraints (empty constraint matrix). -/
def freeInput : PInput :=
  { triInput with constraintMat := ⟨0, 3, fun _ _ => 0⟩ }

/-- The unconstrained triangle with a non-uniform edge weight (weight 2 on
edge 0). -/
def weightedInput : PInput :=
  { freeInput with edgeWeights := fun e => if e = 0 then 2 else 1 }

/-- A one-face input with a 6-column raw field, so `N = 2`. -/
def twoFieldInput : PInput where
  numF := 1
  wholeV := fun _ _ => 0
  wholeF := fun _ j => j
  FE := fun _ j => j
  rawCols := 6
  rawField := fun _ _ => 0
  edgeWeights := fun _ => 1
  vt2cMat := ⟨6, 6, fun r c => if r = c then 1 else 0⟩
  constraintMat := ⟨0, 6, fun _ _ => 0⟩

/-- The triangle scenario with a genuinely reduced map: `vt2cMat` is `3 × 1`
(all three corners identified to one unknown). -/
def narrowInput : PInput :=
  { triInput with vt2cMat := ⟨3, 1, fun r c => if r = 0 ∧ c = 0 then 1 else 0⟩ }

/-- The unconstrained triangle with a 4-column raw field (`N = 4/3 = 1`);
column 3 lies beyond the `3*N` columns the code reads. -/
def wideInput : PInput :=
  { freeInput with rawCols := 4,
                   rawField := fun _ c => if c = 0 then 1 else if c = 3 then 5 else 0 }

/-- A raw field agreeing with `wideInput.rawField` on columns `0,1,2` and
differing on column 3. -/
def wideAlt : ℕ → ℕ → ℚ :=
  fun _ c => if c = 0 then 1 else if c = 3 then 99 else 0

/-- A solver oracle that always succeeds and returns the zero vector. -/
def solver0 : LUSolver := ⟨fun _ => true, fun _ _ => some fun _ => 0⟩

/-- A solver oracle whose factorization always fails. -/
def solverFail : LUSolver := ⟨fun _ => false, fun _ _ => none⟩

/-- The exact saddle-point solution of the spec's concrete scenario:
`x = (0, 1, 0)` with Lagrange multiplier `0`. -/
def xStar : Vec := ⟨4, fun r => if r = 1 then 1 else 0⟩

/- ### Helper lemmas -/

/-- Two matrices with the same dimensions and the same entry function are
equal. -/
theorem SpMat.eq_of_dims_entry {M B : SpMat} (hr : M.rows = B.rows)
    (hc : M.cols = B.cols) (he : M.entry = B.entry) : M = B := by
  cases M; cases B
  cases hr; cases hc; cases he
  rfl

/-- Two vectors with the same length and the same entry function are
equal. -/
theorem Vec.eq_of_len_entry {v w : Vec} (hl : v.len = w.len)
    (he : v.entry = w.entry) : v = w := by
  cases v; cases w
  cases hl; cases he
  rfl

/-- The index map `(i,j,k) ↦ 3*N*i + N*j + k` of the assembly loops is
injective on `j < 3`, `k < N`. -/
theorem encode_inj {N i j k i' j' k' : ℕ} (hj : j < 3) (hk : k < N)
    (hj' : j' < 3) (hk' : k' < N)
    (h : 3 * N * i + N * j + k = 3 * N * i' + N * j' + k') :
    i = i' ∧ j = j' ∧ k = k' := by
  have hN : 0 < N := lt_of_le_of_lt (Nat.zero_le k) hk
  have hjN : N * j ≤ N * 2 := Nat.mul_le_mul_left N (by omega)
  have hj'N : N * j' ≤ N * 2 := Nat.mul_le_mul_left N (by omega)
  have hs : N * j + k < 3 * N := by omega
  have hs' : N * j' + k' < 3 * N := by omega
  have h3N : 0 < 3 * N := by omega
  have d1 : (3 * N * i + (N * j + k)) / (3 * N) = i := by
    rw [Nat.mul_add_div h3N, Nat.div_eq_of_lt hs, Nat.add_zero]
  have d2 : (3 * N * i' + (N * j' + k')) / (3 * N) = i' := by
    rw [Nat.mul_add_div h3N, Nat.div_eq_of_lt hs', Nat.add_zero]
  have hi : i = i' := by
    have hre : 3 * N * i + (N * j + k) = 3 * N * i' + (N * j' + k') := by omega
    have := congrArg (fun z => z / (3 * N)) hre
    simpa [d1, d2] using this
  subst hi
  have hss : N * j + k = N * j' + k' := by omega
  have e1 : (N * j + k) / N = j := by
    rw [Nat.mul_add_div hN, Nat.div_eq_of_lt hk, Nat.add_zero]
  have e2 : (N * j' + k') / N = j' := by
    rw [Nat.mul_add_div hN, Nat.div_eq_of_lt hk', Nat.add_zero]
  have hjj : j = j' := by
    have := congrArg (fun z => z / N) hss
    simpa [e1, e2] using this
  subst hjj
  exact ⟨rfl, rfl, by omega⟩

/-- Extracting the unique assembly-loop contribution at index
`3*N*i + N*j + k` from a triple loop sum. -/
theorem sum_encode_pick (numF N i j k : ℕ) (hi : i < numF) (hj : j < 3)
    (hk : k < N) (F : ℕ → ℕ → ℕ → ℚ) :
    (∑ a ∈ Finset.range numF, ∑ c ∈ Finset.range 3, ∑ e ∈ Finset.range N,
      (if 3 * N * i + N * j + k = 3 * N * a + N * c + e then F a c e else 0)) =
      F i j k := by
  have step1 : (∑ a ∈ Finset.range numF, ∑ c ∈ Finset.range 3, ∑ e ∈ Finset.range N,
      (if 3 * N * i + N * j + k = 3 * N * a + N * c + e then F a c e else 0)) =
      ∑ c ∈ Finset.range 3, ∑ e ∈ Finset.range N,
        (if 3 * N * i + N * j + k = 3 * N * i + N * c + e then F i c e else 0) := by
    refine Finset.sum_eq_single_of_mem i (Finset.mem_range.mpr hi) fun a _ hai => ?_
    refine Finset.sum_eq_zero fun c hc => Finset.sum_eq_zero fun e he => ?_
    rw [if_neg]
    intro hcontra
    exact hai ((encode_inj hj hk (Finset.mem_range.mp hc)
      (Finset.mem_range.mp he) hcontra).1).symm
  have step2 : (∑ c ∈ Finset.range 3, ∑ e ∈ Finset.range N,
      (if 3 * N * i + N * j + k = 3 * N * i + N * c + e then F i c e else 0)) =
      ∑ e ∈ Finset.range N,
        (if 3 * N * i + N * j + k = 3 * N * i + N * j + e then F i j e else 0) := by
    refine Finset.sum_eq_single_of_mem j (Finset.mem_range.mpr hj) fun c hc hcj => ?_
    refine Finset.sum_eq_zero fun e he => ?_
    rw [if_neg]
    intro hcontra
    exact hcj ((encode_inj hj hk (Finset.mem_range.mp hc)
      (Finset.mem_range.mp he) hcontra).2.1).symm
  have step3 : (∑ e ∈ Finset.range N,
      (if 3 * N * i + N * j + k = 3 * N * i + N * j + e then F i j e else 0)) =
      F i j k := by
    have h0 : (∑ e ∈ Finset.range N,
        (if 3 * N * i + N * j + k = 3 * N * i + N * j + e then F i j e else 0)) =
        (if 3 * N * i + N * j + k = 3 * N * i + N * j + k then F i j k else 0) := by
      refine Finset.sum_eq_single_of_mem k (Finset.mem_range.mpr hk) fun e he hek => ?_
      rw [if_neg]
      intro hcontra
      exact hek ((encode_inj hj hk hj (Finset.mem_range.mp he) hcontra).2.2).symm
    rw [h0, if_pos rfl]
  rw [step1, step2, step3]

/- ### Claim theorems -/

/-- C8: when `N = 1`, the column index the code computes for the `+1` entry
of `d0`, `3*N*i + (N*(j+1)) % 3 + k`, coincides with the specified
`3*N*i + N*((j+1) % 3) + k` everywhere, so the assembled operator equals
the spec's one: `d0 = d0Spec`. -/
theorem c8_wrap_agrees_at_N1 (inp : PInput) (h : branchN inp = 1) :
    d0 inp = d0Spec inp := by
  refine SpMat.eq_of_dims_entry rfl rfl ?_
  funext r c
  simp only [d0, d0Spec, h]
  refine Finset.sum_congr rfl fun i _ => Finset.sum_congr rfl fun j _ =>
    Finset.sum_congr rfl fun k _ => ?_
  simp

/-- C8 witness: the equivalence at the concrete one-triangle input. -/
theorem c8_wrap_agrees_at_N1_witness :
    branchN triInput = 1 ∧ d0 triInput = d0Spec triInput :=
  ⟨rfl, c8_wrap_agrees_at_N1 triInput rfl⟩

/-- C2 (code bug): at `N = 2`, face `0`, corner `j = 1`, branch `k = 0`
(row `2` of `d0`), the claimed `+1` column is `3·N·0 + N·((1+1) mod 3) + 0
= 4`, but the code computes `(N·(1+1)) mod 3 = 1`: the assembled `d0` is
`0` at column 4, `+1` at column 1 (and `-1` at column 2). -/
theorem c2_wrap_bug_at_N2 :
    branchN twoFieldInput = 2 ∧
    (d0 twoFieldInput).entry 2 4 = 0 ∧
    (d0 twoFieldInput).entry 2 1 = 1 ∧
    (d0 twoFieldInput).entry 2 2 = -1 := by
  refine ⟨rfl, ?_, ?_, ?_⟩ <;>
    norm_num [d0, twoFieldInput, branchN, Finset.sum_range_succ]

/-- C9: the call's dimension requirements — `A` is square of size
`3·N·#F + #constraints` while `b` has length `cols(P) + #constraints`, the
solve needs `b` and `A` to agree and the final projection needs
`cols(P) = size(A)` — hold together exactly when the constraint matrix has
no rows and `vt2cMat` is square of size `3·N·#F`. -/
theorem c9_dims_force_square_unconstrained (inp : PInput) :
    ((A inp).rows = 3 * branchN inp * inp.numF + inp.constraintMat.rows ∧
     (A inp).cols = 3 * branchN inp * inp.numF + inp.constraintMat.rows ∧
     (b inp).len = inp.vt2cMat.cols + inp.constraintMat.rows) ∧
    (dimOk inp ↔
      (inp.constraintMat.rows = 0 ∧
       inp.vt2cMat.rows = 3 * branchN inp * inp.numF ∧
       inp.vt2cMat.cols = 3 * branchN inp * inp.numF)) := by
  have hA : (A inp).rows = 3 * branchN inp * inp.numF + inp.constraintMat.rows := rfl
  have hb : (b inp).len = inp.vt2cMat.cols + inp.constraintMat.rows := rfl
  refine ⟨⟨rfl, rfl, rfl⟩, ?_⟩
  unfold dimOk
  rw [hA, hb]
  omega

/-- C5: for every face `i`, corner `j`, branch `k`, the target entry
`gamma[3·N·i + N·j + k]` is the dot product of field branch `k` of face `i`
(columns `3k..3k+2` of the field row) with the edge vector from corner `j`
to corner `(j+1) mod 3`. -/
theorem c5_gamma_is_edge_projection (inp : PInput) (i j k : ℕ)
    (hi : i < inp.numF) (hj : j < 3) (hk : k < branchN inp) :
    (gamma inp).entry (3 * branchN inp * i + branchN inp * j + k) =
      ∑ t ∈ Finset.range 3, inp.rawField i (3 * k + t) * edgeVector inp i j t :=
  sum_encode_pick inp.numF (branchN inp) i j k hi hj hk _

/-- C5 witness: the entry at face 0, corner 1, branch 0 of the concrete
triangle scenario. -/
theorem c5_gamma_is_edge_projection_witness :
    (0 < triInput.numF ∧ 1 < 3 ∧ 0 < branchN triInput) ∧
    (gamma triInput).entry (3 * branchN triInput * 0 + branchN triInput * 1 + 0) =
      ∑ t ∈ Finset.range 3, triInput.rawField 0 (3 * 0 + t) * edgeVector triInput 0 1 t :=
  ⟨⟨by decide, by decide, by decide⟩,
    c5_gamma_is_edge_projection triInput 0 1 0 (by decide) (by decide) (by decide)⟩

/-- C1 (code bug): with a non-uniform weight (weight 2 on edge 0) the
assembled right-hand side top entry is `(Pᵗ·Dᵗ·γ)(0) = -1`, whereas the
claimed least-squares gradient `(Pᵗ·Dᵗ·M·γ)(0)` is `-2`: line 95 of the
source omits the weight matrix `M1` from `b`. -/
theorem c1_rhs_omits_weight_matrix :
    (b weightedInput).entry 0 = -1 ∧
    ((((weightedInput.vt2cMat.transpose).mul ((d0 weightedInput).transpose)).mul
        (M1 weightedInput)).mulVec (gamma weightedInput)).entry 0 = -2 := by
  constructor <;>
    norm_num [b, SpMat.mul, SpMat.mulVec, SpMat.transpose, d0, M1, gamma,
      edgeVector, weightedInput, freeInput, triInput, branchN,
      Finset.sum_range_succ]

/-- C10: `N` is `rawField.cols()/3` by integer division, and the call reads
only the first `3·N` field columns: replacing the field by any `g` that
agrees on columns `< 3·(cols/3)` leaves the result of the call unchanged. -/
theorem c10_trailing_columns_ignored (solver : LUSolver) (inp : PInput)
    (g : ℕ → ℕ → ℚ)
    (hg : ∀ i c, c < 3 * (inp.rawCols / 3) → g i c = inp.rawField i c) :
    branchN inp = inp.rawCols / 3 ∧
    parameterize solver { inp with rawField := g } = parameterize solver inp := by
  refine ⟨rfl, ?_⟩
  have hgam : gamma { inp with rawField := g } = gamma inp := by
    refine Vec.eq_of_len_entry rfl ?_
    funext r
    show (∑ i ∈ Finset.range inp.numF, ∑ j ∈ Finset.range 3,
        ∑ k ∈ Finset.range (branchN inp),
        (if r = 3 * branchN inp * i + branchN inp * j + k then
          ∑ t ∈ Finset.range 3, g i (3 * k + t) * edgeVector inp i j t
         else 0)) =
      ∑ i ∈ Finset.range inp.numF, ∑ j ∈ Finset.range 3,
        ∑ k ∈ Finset.range (branchN inp),
        (if r = 3 * branchN inp * i + branchN inp * j + k then
          ∑ t ∈ Finset.range 3, inp.rawField i (3 * k + t) * edgeVector inp i j t
         else 0)
    refine Finset.sum_congr rfl fun i _ => Finset.sum_congr rfl fun j _ =>
      Finset.sum_congr rfl fun k hk => ?_
    refine if_congr Iff.rfl ?_ rfl
    refine Finset.sum_congr rfl fun t ht => ?_
    rw [hg i (3 * k + t)
      (by have hk2 := Finset.mem_range.mp hk
          have ht2 := Finset.mem_range.mp ht
          show 3 * k + t < 3 * (inp.rawCols / 3)
          have : k < inp.rawCols / 3 := hk2
          omega)]
  have hbv : b { inp with rawField := g } = b inp := by
    refine Vec.eq_of_len_entry rfl ?_
    funext r
    show (if r < inp.vt2cMat.cols then
        (((inp.vt2cMat.transpose).mul ((d0 inp).transpose)).mulVec
          (gamma { inp with rawField := g })).entry r
      else 0) = (b inp).entry r
    rw [hgam]
    rfl
  have hA : A { inp with rawField := g } = A inp := rfl
  have h1 : ({ inp with rawField := g } : PInput).vt2cMat = inp.vt2cMat := rfl
  have h2 : branchN { inp with rawField := g } = branchN inp := rfl
  have h3 : ({ inp with rawField := g } : PInput).numF = inp.numF := rfl
  simp only [parameterize]
  rw [h1, h2, h3, hA, hbv]

/-- C10 witness: two concrete 4-column fields agreeing on columns 0..2 and
differing at column 3 give the same call result. -/
theorem c10_trailing_columns_ignored_witness :
    (∀ i c, c < 3 * (wideInput.rawCols / 3) → wideAlt i c = wideInput.rawField i c) ∧
    parameterize solver0 { wideInput with rawField := wideAlt } =
      parameterize solver0 wideInput := by
  have hg : ∀ i c, c < 3 * (wideInput.rawCols / 3) →
      wideAlt i c = wideInput.rawField i c := by
    intro i c hc
    have hc3 : c < 3 := hc
    interval_cases c <;> rfl
  exact ⟨hg, (c10_trailing_columns_ignored solver0 wideInput wideAlt hg).2⟩


/-- Dissection of a successful call: every check of the success path
passed, and the output is `vt2cMat` times the full augmented solution. -/
theorem parameterize_ok_path (solver : LUSolver) (inp : PInput) (uv : Vec)
    (h : parameterize solver inp = .ok uv) :
    inp.vt2cMat.rows = 3 * branchN inp * inp.numF ∧
    (b inp).len = (A inp).rows ∧
    inp.vt2cMat.cols = (A inp).rows ∧
    ∃ f, solver.solveEntries (A inp) (b inp) = some f ∧
      uv = inp.vt2cMat.mulVec ⟨(A inp).rows, f⟩ := by
  by_cases h1 : inp.vt2cMat.rows = 3 * branchN inp * inp.numF
  case neg => simp [parameterize, h1] at h
  rcases hc : solver.computeOk (A inp) with _ | _
  · simp [parameterize, h1, hc] at h
  by_cases h2 : (b inp).len = (A inp).rows
  case neg => simp [parameterize, h1, hc, h2] at h
  rcases hs : solver.solveEntries (A inp) (b inp) with _ | f0
  · simp [parameterize, h1, hc, h2, hs] at h
  by_cases h3 : inp.vt2cMat.cols = (A inp).rows
  case neg => simp [parameterize, h1, hc, h2, hs, h3] at h
  simp only [parameterize, h1, hc, h2, hs, h3, if_true, if_pos] at h
  refine ⟨h1, h2, h3, f0, rfl, ?_⟩
  simp at h
  exact h.symm

/-- C4: on success the returned corner UV equals `vt2cMat` applied to the
leading `cols(vt2cMat)` (reduced-dimension) entries of the augmented
solution, and has `3·N·#F` entries.  (A successful call forces the
constraint matrix to have zero rows, so the discarded trailing segment is
empty.) -/
theorem c4_success_projects_reduced (solver : LUSolver) (inp : PInput) (uv : Vec)
    (h : parameterize solver inp = .ok uv) :
    inp.constraintMat.rows = 0 ∧
    uv.len = 3 * branchN inp * inp.numF ∧
    ∀ f, solver.solveEntries (A inp) (b inp) = some f →
      uv = inp.vt2cMat.mulVec (Vec.take ⟨(A inp).rows, f⟩ inp.vt2cMat.cols) := by
  obtain ⟨h1, h2, h3, f0, hs, huv⟩ := parameterize_ok_path solver inp uv h
  have hA : (A inp).rows = 3 * branchN inp * inp.numF + inp.constraintMat.rows := rfl
  have hblen : (b inp).len = inp.vt2cMat.cols + inp.constraintMat.rows := rfl
  rw [hA, hblen] at h2
  rw [hA] at h3
  have hzero : inp.constraintMat.rows = 0 := by omega
  refine ⟨hzero, ?_, ?_⟩
  · rw [huv]
    show inp.vt2cMat.rows = _
    exact h1
  · intro f hf
    rw [hs] at hf
    injection hf with hff
    subst hff
    rw [huv]
    refine Vec.eq_of_len_entry rfl ?_
    funext r
    show (∑ m ∈ Finset.range inp.vt2cMat.cols, inp.vt2cMat.entry r m * f0 m) =
      ∑ m ∈ Finset.range inp.vt2cMat.cols,
        inp.vt2cMat.entry r m *
          (Vec.take ⟨(A inp).rows, f0⟩ inp.vt2cMat.cols).entry m
    refine Finset.sum_congr rfl fun m hm => ?_
    have hmlt : m < inp.vt2cMat.cols := Finset.mem_range.mp hm
    simp [Vec.take, hmlt]

/-- C4 witness: a successful unconstrained call on the triangle scenario. -/
theorem c4_success_projects_reduced_witness :
    parameterize solver0 freeInput =
      .ok (freeInput.vt2cMat.mulVec ⟨(A freeInput).rows, fun _ => 0⟩) ∧
    (freeInput.constraintMat.rows = 0 ∧
     (freeInput.vt2cMat.mulVec ⟨(A freeInput).rows, fun _ => 0⟩).len =
       3 * branchN freeInput * freeInput.numF ∧
     ∀ f, solver0.solveEntries (A freeInput) (b freeInput) = some f →
       freeInput.vt2cMat.mulVec ⟨(A freeInput).rows, fun _ => 0⟩ =
         freeInput.vt2cMat.mulVec
           (Vec.take ⟨(A freeInput).rows, f⟩ freeInput.vt2cMat.cols)) :=
  ⟨rfl, c4_success_projects_reduced solver0 freeInput _ rfl⟩

/-- C6: if the factorization reports failure, or the solve reports failure,
the call produces no corner UV and the caller-supplied output buffer is
left exactly as it was; there is no retry and no fallback path. -/
theorem c6_solver_failure_leaves_output (solver : LUSolver) (inp : PInput)
    (old : Vec)
    (h : solver.computeOk (A inp) = false ∨
         solver.solveEntries (A inp) (b inp) = none) :
    isOk (parameterize solver inp) = false ∧
    parameterizeRun solver inp old = old := by
  have hne : parameterize solver inp = .earlyReturn ∨
      parameterize solver inp = .assertFail := by
    by_cases h1 : inp.vt2cMat.rows = 3 * branchN inp * inp.numF
    case neg => right; simp [parameterize, h1]
    rcases h with h | h
    · left; simp [parameterize, h1, h]
    · rcases hc : solver.computeOk (A inp) with _ | _
      · left; simp [parameterize, h1, hc]
      by_cases h2 : (b inp).len = (A inp).rows
      case neg => right; simp [parameterize, h1, hc, h2]
      left; simp [parameterize, h1, hc, h2, h]
  rcases hne with hv | hv <;>
    exact ⟨by rw [hv]; rfl, by rw [parameterizeRun, hv]⟩

/-- C6 witness: a failing factorization on the triangle scenario leaves a
pre-existing output buffer untouched. -/
theorem c6_solver_failure_leaves_output_witness :
    (solverFail.computeOk (A triInput) = false ∨
     solverFail.solveEntries (A triInput) (b triInput) = none) ∧
    isOk (parameterize solverFail triInput) = false ∧
    parameterizeRun solverFail triInput ⟨3, fun _ => 7⟩ = ⟨3, fun _ => 7⟩ :=
  ⟨Or.inl rfl,
    c6_solver_failure_leaves_output solverFail triInput ⟨3, fun _ => 7⟩ (Or.inl rfl)⟩

set_option maxHeartbeats 1000000 in
/-- C7 (code bug): on the spec's concrete triangle scenario (one pinning
constraint row) no solver oracle can make the call succeed — after the
solve the code aborts multiplying the `3 × 3` map by the length-4 augmented
solution — even though the saddle-point system itself has the exact
solution `xStar = (0, 1, 0; 0)`, whose corner part is the expected
`[0, 1, 0]`. -/
theorem c7_concrete_scenario_cannot_succeed :
    (∀ solver : LUSolver, isOk (parameterize solver triInput) = false) ∧
    ((A triInput).mulVec xStar).entry 0 = (b triInput).entry 0 ∧
    ((A triInput).mulVec xStar).entry 1 = (b triInput).entry 1 ∧
    ((A triInput).mulVec xStar).entry 2 = (b triInput).entry 2 ∧
    ((A triInput).mulVec xStar).entry 3 = (b triInput).entry 3 ∧
    xStar.entry 0 = 0 ∧ xStar.entry 1 = 1 ∧ xStar.entry 2 = 0 := by
  constructor
  · intro solver
    have e1 : triInput.vt2cMat.rows = 3 * branchN triInput * triInput.numF := rfl
    have e2 : (b triInput).len = (A triInput).rows := rfl
    have e3 : ¬(triInput.vt2cMat.cols = (A triInput).rows) := by decide
    cases hc : solver.computeOk (A triInput)
    · simp [parameterize, e1, hc, isOk]
    · cases hs : solver.solveEntries (A triInput) (b triInput)
      · simp [parameterize, e1, hc, e2, hs, isOk]
      · simp [parameterize, e1, hc, e2, hs, e3, isOk]
  · refine ⟨?_, ?_, ?_, ?_, rfl, rfl, rfl⟩ <;>
    · simp only [A, b, EtE, SpMat.mul, SpMat.mulVec, SpMat.transpose, d0, M1,
        gamma, edgeVector, triInput, branchN, xStar, Vec.take,
        Finset.sum_range_succ, Finset.sum_range_zero]
      norm_num


/-- Off-diagonal entries of the assembled weight matrix vanish. -/
theorem M1_offdiag (inp : PInput) {r c : ℕ} (h : r ≠ c) :
    (M1 inp).entry r c = 0 := by
  show (∑ i ∈ Finset.range inp.numF, ∑ j ∈ Finset.range 3,
      ∑ k ∈ Finset.range (branchN inp),
      (if r = 3 * branchN inp * i + branchN inp * j + k ∧
          c = 3 * branchN inp * i + branchN inp * j + k then
        inp.edgeWeights (inp.FE i j) else 0)) = 0
  refine Finset.sum_eq_zero fun i _ => Finset.sum_eq_zero fun j _ =>
    Finset.sum_eq_zero fun k _ => ?_
  rw [if_neg]
  rintro ⟨h1, h2⟩
  exact h (h1.trans h2.symm)

/-- The reduced energy entry, with the diagonal weight factor collapsed. -/
theorem EtE_entry_collapsed (inp : PInput)
    (hP : inp.vt2cMat.rows = 3 * branchN inp * inp.numF) (a c : ℕ) :
    (EtE inp).entry a c =
      ∑ m ∈ Finset.range (3 * branchN inp * inp.numF),
        ∑ t ∈ Finset.range (3 * branchN inp * inp.numF),
          ∑ u ∈ Finset.range (3 * branchN inp * inp.numF),
            inp.vt2cMat.entry u a * (d0 inp).entry m u * (M1 inp).entry m m *
              (d0 inp).entry m t * inp.vt2cMat.entry t c := by
  show (∑ t ∈ Finset.range (3 * branchN inp * inp.numF),
      (∑ m ∈ Finset.range (3 * branchN inp * inp.numF),
        (∑ u ∈ Finset.range (3 * branchN inp * inp.numF),
          (∑ v ∈ Finset.range inp.vt2cMat.rows,
            inp.vt2cMat.entry v a * (d0 inp).entry u v) * (M1 inp).entry u m) *
        (d0 inp).entry m t) * inp.vt2cMat.entry t c) =
    ∑ m ∈ Finset.range (3 * branchN inp * inp.numF),
      ∑ t ∈ Finset.range (3 * branchN inp * inp.numF),
        ∑ u ∈ Finset.range (3 * branchN inp * inp.numF),
          inp.vt2cMat.entry u a * (d0 inp).entry m u * (M1 inp).entry m m *
            (d0 inp).entry m t * inp.vt2cMat.entry t c
  simp only [hP]
  simp only [Finset.sum_mul]
  rw [Finset.sum_comm]
  refine Finset.sum_congr rfl fun m hm => ?_
  refine Finset.sum_congr rfl fun t ht => ?_
  have hcol : (∑ u ∈ Finset.range (3 * branchN inp * inp.numF),
      ∑ v ∈ Finset.range (3 * branchN inp * inp.numF),
        (((inp.vt2cMat.entry v a * (d0 inp).entry u v) * (M1 inp).entry u m) *
          (d0 inp).entry m t) * inp.vt2cMat.entry t c)
      = ∑ v ∈ Finset.range (3 * branchN inp * inp.numF),
        (((inp.vt2cMat.entry v a * (d0 inp).entry m v) * (M1 inp).entry m m) *
          (d0 inp).entry m t) * inp.vt2cMat.entry t c := by
    refine Finset.sum_eq_single_of_mem m hm fun u _ hune => ?_
    refine Finset.sum_eq_zero fun v _ => ?_
    rw [M1_offdiag inp hune]
    ring
  rw [hcol]

/-- The reduced energy matrix is symmetric. -/
theorem EtE_symm (inp : PInput)
    (hP : inp.vt2cMat.rows = 3 * branchN inp * inp.numF) (a c : ℕ) :
    (EtE inp).entry a c = (EtE inp).entry c a := by
  rw [EtE_entry_collapsed inp hP a c, EtE_entry_collapsed inp hP c a]
  refine Finset.sum_congr rfl fun m _ => ?_
  rw [Finset.sum_comm]
  refine Finset.sum_congr rfl fun t _ => Finset.sum_congr rfl fun u _ => ?_
  ring

/-- The entry of the augmented matrix, unfolded. -/
theorem A_entry (inp : PInput) (r c : ℕ) :
    (A inp).entry r c =
      (if r < (EtE inp).rows ∧ c < (EtE inp).cols then (EtE inp).entry r c else 0) +
      ∑ p ∈ Finset.range inp.constraintMat.rows,
        ∑ q ∈ Finset.range inp.constraintMat.cols,
          ((if r = p + 3 * branchN inp * inp.numF ∧ c = q then
              inp.constraintMat.entry p q else 0) +
           (if r = q ∧ c = p + 3 * branchN inp * inp.numF then
              inp.constraintMat.entry p q else 0)) := rfl


/-- C3 (amended): when `cols(vt2cMat) = 3·N·#F` (the only dimensionally
consistent regime, cf. C9) and `cols(constraintMat) = cols(vt2cMat)`, the
augmented matrix is square of size (reduced dimension + #constraints) with
`EtE` in the top-left block, the constraint matrix and its transpose in the
off-diagonal blocks, zero in the bottom-right block, and is symmetric. -/
theorem c3_augmented_structure (inp : PInput)
    (hP : inp.vt2cMat.rows = 3 * branchN inp * inp.numF)
    (hPc : inp.vt2cMat.cols = 3 * branchN inp * inp.numF)
    (hC : inp.constraintMat.cols = inp.vt2cMat.cols) :
    ((A inp).rows = inp.vt2cMat.cols + inp.constraintMat.rows ∧
     (A inp).cols = inp.vt2cMat.cols + inp.constraintMat.rows) ∧
    (∀ r c, r < inp.vt2cMat.cols → c < inp.vt2cMat.cols →
      (A inp).entry r c = (EtE inp).entry r c) ∧
    (∀ p c, p < inp.constraintMat.rows → c < inp.vt2cMat.cols →
      (A inp).entry (inp.vt2cMat.cols + p) c = inp.constraintMat.entry p c ∧
      (A inp).entry c (inp.vt2cMat.cols + p) = inp.constraintMat.entry p c) ∧
    (∀ r c, inp.vt2cMat.cols ≤ r → inp.vt2cMat.cols ≤ c →
      (A inp).entry r c = 0) ∧
    (∀ r c, (A inp).entry r c = (A inp).entry c r) := by
  have hArows : (A inp).rows = 3 * branchN inp * inp.numF + inp.constraintMat.rows := rfl
  have hAcols : (A inp).cols = 3 * branchN inp * inp.numF + inp.constraintMat.rows := rfl
  refine ⟨⟨by rw [hArows, hPc], by rw [hAcols, hPc]⟩, ?_, ?_, ?_, ?_⟩
  · -- top-left block
    intro r c hr hc2
    rw [A_entry]
    rw [if_pos ⟨(hr : r < inp.vt2cMat.cols), (hc2 : c < inp.vt2cMat.cols)⟩]
    have hsum : (∑ p ∈ Finset.range inp.constraintMat.rows,
        ∑ q ∈ Finset.range inp.constraintMat.cols,
          ((if r = p + 3 * branchN inp * inp.numF ∧ c = q then
              inp.constraintMat.entry p q else 0) +
           (if r = q ∧ c = p + 3 * branchN inp * inp.numF then
              inp.constraintMat.entry p q else 0))) = 0 := by
      refine Finset.sum_eq_zero fun p _ => Finset.sum_eq_zero fun q _ => ?_
      have hn1 : ¬(r = p + 3 * branchN inp * inp.numF ∧ c = q) := by
        rintro ⟨h1, _⟩
        omega
      have hn2 : ¬(r = q ∧ c = p + 3 * branchN inp * inp.numF) := by
        rintro ⟨_, h2⟩
        omega
      rw [if_neg hn1, if_neg hn2, add_zero]
    rw [hsum, add_zero]
  · -- the constraint blocks
    intro p c hp hc2
    have hcC : c < inp.constraintMat.cols := by omega
    constructor
    · rw [A_entry]
      have hno : ¬(inp.vt2cMat.cols + p < (EtE inp).rows ∧ c < (EtE inp).cols) := by
        rintro ⟨h1, _⟩
        exact absurd (h1 : inp.vt2cMat.cols + p < inp.vt2cMat.cols)
          (not_lt.mpr (Nat.le_add_right _ _))
      rw [if_neg hno, zero_add]
      have houter : (∑ x ∈ Finset.range inp.constraintMat.rows,
          ∑ q ∈ Finset.range inp.constraintMat.cols,
            ((if inp.vt2cMat.cols + p = x + 3 * branchN inp * inp.numF ∧ c = q then
                inp.constraintMat.entry x q else 0) +
             (if inp.vt2cMat.cols + p = q ∧ c = x + 3 * branchN inp * inp.numF then
                inp.constraintMat.entry x q else 0))) =
          ∑ q ∈ Finset.range inp.constraintMat.cols,
            ((if inp.vt2cMat.cols + p = p + 3 * branchN inp * inp.numF ∧ c = q then
                inp.constraintMat.entry p q else 0) +
             (if inp.vt2cMat.cols + p = q ∧ c = p + 3 * branchN inp * inp.numF then
                inp.constraintMat.entry p q else 0)) := by
        refine Finset.sum_eq_single_of_mem p (Finset.mem_range.mpr hp)
          fun x hx hxp => ?_
        refine Finset.sum_eq_zero fun q hq => ?_
        have hqlt := Finset.mem_range.mp hq
        have hn1 : ¬(inp.vt2cMat.cols + p = x + 3 * branchN inp * inp.numF ∧ c = q) := by
          rintro ⟨h1, _⟩
          exact hxp (by omega)
        have hn2 : ¬(inp.vt2cMat.cols + p = q ∧ c = x + 3 * branchN inp * inp.numF) := by
          rintro ⟨h1, _⟩
          omega
        rw [if_neg hn1, if_neg hn2, add_zero]
      rw [houter]
      have hinner : (∑ q ∈ Finset.range inp.constraintMat.cols,
          ((if inp.vt2cMat.cols + p = p + 3 * branchN inp * inp.numF ∧ c = q then
              inp.constraintMat.entry p q else 0) +
           (if inp.vt2cMat.cols + p = q ∧ c = p + 3 * branchN inp * inp.numF then
              inp.constraintMat.entry p q else 0))) =
          inp.constraintMat.entry p c := by
        refine (Finset.sum_eq_single_of_mem c (Finset.mem_range.mpr hcC)
          fun q hq hqc => ?_).trans ?_
        · have hqlt := Finset.mem_range.mp hq
          have hn1 : ¬(inp.vt2cMat.cols + p = p + 3 * branchN inp * inp.numF ∧ c = q) := by
            rintro ⟨_, h2⟩
            exact hqc h2.symm
          have hn2 : ¬(inp.vt2cMat.cols + p = q ∧ c = p + 3 * branchN inp * inp.numF) := by
            rintro ⟨h1, _⟩
            omega
          rw [if_neg hn1, if_neg hn2, add_zero]
        · have hy1 : inp.vt2cMat.cols + p = p + 3 * branchN inp * inp.numF := by omega
          have hn2 : ¬(inp.vt2cMat.cols + p = c ∧ c = p + 3 * branchN inp * inp.numF) := by
            rintro ⟨h1, _⟩
            omega
          rw [if_pos ⟨hy1, rfl⟩, if_neg hn2, add_zero]
      rw [hinner]
    · rw [A_entry]
      have hno : ¬(c < (EtE inp).rows ∧ inp.vt2cMat.cols + p < (EtE inp).cols) := by
        rintro ⟨_, h2⟩
        exact absurd (h2 : inp.vt2cMat.cols + p < inp.vt2cMat.cols)
          (not_lt.mpr (Nat.le_add_right _ _))
      rw [if_neg hno, zero_add]
      have houter : (∑ x ∈ Finset.range inp.constraintMat.rows,
          ∑ q ∈ Finset.range inp.constraintMat.cols,
            ((if c = x + 3 * branchN inp * inp.numF ∧ inp.vt2cMat.cols + p = q then
                inp.constraintMat.entry x q else 0) +
             (if c = q ∧ inp.vt2cMat.cols + p = x + 3 * branchN inp * inp.numF then
                inp.constraintMat.entry x q else 0))) =
          ∑ q ∈ Finset.range inp.constraintMat.cols,
            ((if c = p + 3 * branchN inp * inp.numF ∧ inp.vt2cMat.cols + p = q then
                inp.constraintMat.entry p q else 0) +
             (if c = q ∧ inp.vt2cMat.cols + p = p + 3 * branchN inp * inp.numF then
                inp.constraintMat.entry p q else 0)) := by
        refine Finset.sum_eq_single_of_mem p (Finset.mem_range.mpr hp)
          fun x hx hxp => ?_
        refine Finset.sum_eq_zero fun q hq => ?_
        have hqlt := Finset.mem_range.mp hq
        have hn1 : ¬(c = x + 3 * branchN inp * inp.numF ∧ inp.vt2cMat.cols + p = q) := by
          rintro ⟨h1, _⟩
          omega
        have hn2 : ¬(c = q ∧ inp.vt2cMat.cols + p = x + 3 * branchN inp * inp.numF) := by
          rintro ⟨_, h2⟩
          exact hxp (by omega)
        rw [if_neg hn1, if_neg hn2, add_zero]
      rw [houter]
      have hinner : (∑ q ∈ Finset.range inp.constraintMat.cols,
          ((if c = p + 3 * branchN inp * inp.numF ∧ inp.vt2cMat.cols + p = q then
              inp.constraintMat.entry p q else 0) +
           (if c = q ∧ inp.vt2cMat.cols + p = p + 3 * branchN inp * inp.numF then
              inp.constraintMat.entry p q else 0))) =
          inp.constraintMat.entry p c := by
        refine (Finset.sum_eq_single_of_mem c (Finset.mem_range.mpr hcC)
          fun q hq hqc => ?_).trans ?_
        · have hqlt := Finset.mem_range.mp hq
          have hn1 : ¬(c = p + 3 * branchN inp * inp.numF ∧ inp.vt2cMat.cols + p = q) := by
            rintro ⟨h1, _⟩
            omega
          have hn2 : ¬(c = q ∧ inp.vt2cMat.cols + p = p + 3 * branchN inp * inp.numF) := by
            rintro ⟨h1, _⟩
            exact hqc h1.symm
          rw [if_neg hn1, if_neg hn2, add_zero]
        · have hn1 : ¬(c = p + 3 * branchN inp * inp.numF ∧ inp.vt2cMat.cols + p = c) := by
            rintro ⟨h1, _⟩
            omega
          have hy2 : c = c ∧ inp.vt2cMat.cols + p = p + 3 * branchN inp * inp.numF :=
            ⟨rfl, by omega⟩
          rw [if_neg hn1, if_pos hy2, zero_add]
      rw [hinner]
  · -- bottom-right block is zero
    intro r c hr hc2
    rw [A_entry]
    have hno : ¬(r < (EtE inp).rows ∧ c < (EtE inp).cols) := by
      rintro ⟨h1, _⟩
      exact absurd (h1 : r < inp.vt2cMat.cols) (not_lt.mpr hr)
    rw [if_neg hno, zero_add]
    refine Finset.sum_eq_zero fun p _ => Finset.sum_eq_zero fun q hq => ?_
    have hqlt := Finset.mem_range.mp hq
    have hn1 : ¬(r = p + 3 * branchN inp * inp.numF ∧ c = q) := by
      rintro ⟨_, h2⟩
      omega
    have hn2 : ¬(r = q ∧ c = p + 3 * branchN inp * inp.numF) := by
      rintro ⟨h1, _⟩
      omega
    rw [if_neg hn1, if_neg hn2, add_zero]
  · -- symmetry
    intro r c
    rw [A_entry, A_entry]
    have hX : (if r < (EtE inp).rows ∧ c < (EtE inp).cols then
          (EtE inp).entry r c else 0) =
        (if c < (EtE inp).rows ∧ r < (EtE inp).cols then (EtE inp).entry c r else 0) := by
      by_cases hb : r < (EtE inp).rows ∧ c < (EtE inp).cols
      · rw [if_pos hb, if_pos ⟨(hb.2 : c < inp.vt2cMat.cols), (hb.1 : r < inp.vt2cMat.cols)⟩]
        exact EtE_symm inp hP r c
      · have hb2 : ¬(c < (EtE inp).rows ∧ r < (EtE inp).cols) := by
          rintro ⟨h1, h2⟩
          exact hb ⟨(h2 : r < inp.vt2cMat.cols), (h1 : c < inp.vt2cMat.cols)⟩
        rw [if_neg hb, if_neg hb2]
    rw [hX]
    congr 1
    refine Finset.sum_congr rfl fun p _ => Finset.sum_congr rfl fun q _ => ?_
    rw [add_comm]
    congr 1
    · exact if_congr and_comm rfl rfl
    · exact if_congr and_comm rfl rfl

/-- C3 counterexample: with a genuinely reduced map (`vt2cMat` is `3 × 1`)
the claimed size, reduced dimension + #constraints = 2, differs from the
assembled size `3·N·#F + #constraints = 4`. -/
theorem c3_size_counterexample :
    (A narrowInput).rows = 4 ∧ (A narrowInput).cols = 4 ∧
    narrowInput.vt2cMat.cols + narrowInput.constraintMat.rows = 2 ∧
    (A narrowInput).rows ≠ narrowInput.vt2cMat.cols + narrowInput.constraintMat.rows :=
  ⟨rfl, rfl, rfl, by decide⟩

/-- C3 witness: the amended block structure at the concrete triangle
scenario with its pinning constraint. -/
theorem c3_augmented_structure_witness :
    (triInput.vt2cMat.rows = 3 * branchN triInput * triInput.numF ∧
     triInput.vt2cMat.cols = 3 * branchN triInput * triInput.numF ∧
     triInput.constraintMat.cols = triInput.vt2cMat.cols) ∧
    (((A triInput).rows = triInput.vt2cMat.cols + triInput.constraintMat.rows ∧
      (A triInput).cols = triInput.vt2cMat.cols + triInput.constraintMat.rows) ∧
     (∀ r c, r < triInput.vt2cMat.cols → c < triInput.vt2cMat.cols →
       (A triInput).entry r c = (EtE triInput).entry r c) ∧
     (∀ p c, p < triInput.constraintMat.rows → c < triInput.vt2cMat.cols →
       (A triInput).entry (triInput.vt2cMat.cols + p) c =
         triInput.constraintMat.entry p c ∧
       (A triInput).entry c (triInput.vt2cMat.cols + p) =
         triInput.constraintMat.entry p c) ∧
     (∀ r c, triInput.vt2cMat.cols ≤ r → triInput.vt2cMat.cols ≤ c →
       (A triInput).entry r c = 0) ∧
     (∀ r c, (A triInput).entry r c = (A triInput).entry c r)) :=
  ⟨⟨rfl, rfl, rfl⟩, c3_augmented_structure triInput rfl rfl rfl⟩


end Directional
